import Mathlib

/-!
Shallow embedding of the `ferromagnetic_hysteresis` data-reduction scripts.

Real (Python float) arithmetic is modelled over `ℚ`.  Sequences are `List ℚ`;
out-of-range indexing is modelled with `List.getD _ _ 0`, which is never hit
on the equal-length inputs the scripts assume.  Division is total on `ℚ`
(`x / 0 = 0`); the guards proved below show the scripts never rely on that.
-/

/-- A detected zero-crossing of the crossing axis, as built by
`find_main_coercivity_crossings` / `find_main_hysteresis_crossings`:
`(i, value_at_zero, max_abs_before)` from
`calculate_coercivity.py:65` / `find_proper_remanence.py:65`. -/
structure Crossing where
  idx : Nat
  interp : ℚ
  sal : ℚ
deriving DecidableEq

/-- `np.max(np.abs(slice))` over a nonempty slice of absolute values,
folded with initial value `0` (sound since every `|x|` is nonnegative). -/
def absFoldMax (l : List ℚ) : ℚ := l.foldl (fun m x => max m |x|) 0

/-- `window_start = max(0, i - 50); np.max(np.abs(p[window_start:i+1]))`
(`calculate_coercivity.py:63-64`).  `i - 50` is truncated ℕ subtraction,
which is exactly `max(0, i-50)`. -/
def windowMaxAbs (p : List ℚ) (i : Nat) : ℚ :=
  absFoldMax ((p.drop (i - 50)).take (i + 1 - (i - 50)))

/-- The crossing-detection loop of `find_main_coercivity_crossings`
(`calculate_coercivity.py:58-65`, with `axis = b`, `paired = h`) and of
`find_main_hysteresis_crossings` (`find_proper_remanence.py:58-65`, with
`axis = h`, `paired = b`). -/
def detectCrossings (axis paired : List ℚ) : List Crossing :=
  (List.range (axis.length - 1)).filterMap fun i =>
    if axis.getD i 0 * axis.getD (i + 1) 0 ≤ 0 ∧ axis.getD i 0 ≠ axis.getD (i + 1) 0 then
      some { idx := i
             interp := paired.getD i 0 +
               (paired.getD (i + 1) 0 - paired.getD i 0) * (-(axis.getD i 0)) /
                 (axis.getD (i + 1) 0 - axis.getD i 0)
             sal := windowMaxAbs paired i }
    else none

/-- Stable descending insertion by salience: the new element goes after all
already-placed elements of greater-or-equal salience, matching the stable
`sorted(..., key=lambda x: x[2], reverse=True)`. -/
def insertDesc (c : Crossing) : List Crossing → List Crossing
  | [] => [c]
  | d :: ds => if d.sal < c.sal then c :: d :: ds else d :: insertDesc c ds

/-- `sorted(crossings, key=lambda x: x[2], reverse=True)`
(`calculate_coercivity.py:71`): stable sort, descending by salience. -/
def sortDescBySal (cs : List Crossing) : List Crossing :=
  cs.foldl (fun acc c => insertDesc c acc) []

/-- The inner scan of the selection loop (`calculate_coercivity.py:75-85`):
first crossing, in the sorted order, whose interpolated value has strictly
opposite sign (`h_val * main_crossings[0] < 0`); the `break` means the scan
stops at the first hit. -/
def scanSecond (v : ℚ) : List Crossing → Option ℚ
  | [] => none
  | c :: cs => if c.interp * v < 0 then some c.interp else scanSecond v cs

/-- The `main_crossings` list built by the selection loop
(`calculate_coercivity.py:74-85`): the head of the sorted list, then the
first opposite-sign interpolated value if one exists. -/
def mainCrossingVals (cs : List Crossing) : List ℚ :=
  match sortDescBySal cs with
  | [] => []
  | c :: rest =>
    match scanSecond c.interp rest with
    | some v => [c.interp, v]
    | none => [c.interp]

/-- `calculate_coercivity.py:67-97`: empty-crossing early return, selection
loop, and the sign-based `plus`/`minus` assignment. -/
def selectBranches (cs : List Crossing) : ℚ × ℚ :=
  if cs.isEmpty then (0, 0)
  else
    match mainCrossingVals cs with
    | [v0, v1] => if v0 > 0 then (v0, v1) else (v1, v0)
    | _ => (0, 0)

/-- `find_main_coercivity_crossings(h_values, b_values)`
(`calculate_coercivity.py:49-97`): crossing axis is `b`, the paired
interpolated coordinate is `h`. -/
def find_main_coercivity_crossings (h_values b_values : List ℚ) : ℚ × ℚ :=
  selectBranches (detectCrossings b_values h_values)

/-- `find_main_hysteresis_crossings(h_values, b_values)`
(`find_proper_remanence.py:49-98`): crossing axis is `h`, the paired
interpolated coordinate is `b`. -/
def find_main_hysteresis_crossings (h_values b_values : List ℚ) : ℚ × ℚ :=
  selectBranches (detectCrossings h_values b_values)

/-- The `zero_crossings` list of `find_remanence`
(`calculate_remanence.py:58-66`): interval test
`(h[i] <= 0 <= h[i+1]) or (h[i+1] <= 0 <= h[i])`, then the inner
`h[i+1] != h[i]` guard before interpolating. -/
def remanenceCrossings (h b : List ℚ) : List ℚ :=
  (List.range (h.length - 1)).filterMap fun i =>
    if (h.getD i 0 ≤ 0 ∧ 0 ≤ h.getD (i + 1) 0) ∨ (h.getD (i + 1) 0 ≤ 0 ∧ 0 ≤ h.getD i 0) then
      if h.getD (i + 1) 0 ≠ h.getD i 0 then
        some (b.getD i 0 + (b.getD (i + 1) 0 - b.getD i 0) * (0 - h.getD i 0) /
          (h.getD (i + 1) 0 - h.getD i 0))
      else none
    else none

/-- `np.argmin(np.abs(h))`: first index attaining the minimum absolute value
(strict `<` in the fold keeps the first minimiser, as numpy does). -/
def argminAbs (l : List ℚ) : Nat :=
  (List.range l.length).foldl
    (fun best i => if |l.getD i 0| < |l.getD best 0| then i else best) 0

/-- `find_remanence(h_values, b_values)` (`calculate_remanence.py:49-76`):
two or more crossings return the first two, one crossing is duplicated, and
with no crossing the `b` value at the sample closest to `H = 0` is
duplicated.  (On empty input the Python `np.argmin` raises; the model
returns the `getD` default — no claim touches that case.) -/
def find_remanence (h_values b_values : List ℚ) : ℚ × ℚ :=
  match remanenceCrossings h_values b_values with
  | z0 :: z1 :: _ => (z0, z1)
  | [z0] => (z0, z0)
  | [] => (b_values.getD (argminAbs h_values) 0, b_values.getD (argminAbs h_values) 0)

/-- The downstream uncertainty `abs(b_plus - abs(b_minus)) / 2`
(`calculate_remanence.py:104`, `calculate_coercivity.py:126`). -/
def branchUncertainty (p m : ℚ) : ℚ := |p - abs m| / 2

/-- The downstream midpoint `(plus + abs(minus)) / 2`
(`calculate_remanence.py:101`, `calculate_coercivity.py:125`). -/
def branchMidpoint (p m : ℚ) : ℚ := (p + |m|) / 2

/-- The signed Shoelace accumulation loop shared verbatim by
`calculate_hysteresis_area.py:68-73` and `recalculate_area.py:53-58`:
`n = len(h)`, and for each `i`, `j = (i+1) % n`,
`area += h[i]*b[j] - h[j]*b[i]`. -/
def shoelaceSumL (h b : List ℚ) : ℚ :=
  ∑ i ∈ Finset.range h.length,
    (h.getD i 0 * b.getD ((i + 1) % h.length) 0 -
      h.getD ((i + 1) % h.length) 0 * b.getD i 0)

/-- `calculate_area_shoelace(h, b)` (`recalculate_area.py:51-59`): no length
guard, `abs(area) / 2.0`. -/
def calculate_area_shoelace (h b : List ℚ) : ℚ := |shoelaceSumL h b| / 2

/-- `calculate_hysteresis_area(h_values, b_values)`
(`calculate_hysteresis_area.py:50-75`): explicit `< 3` length guard, then
the same Shoelace loop and `abs(area) / 2.0`. -/
def calculate_hysteresis_area (h_values b_values : List ℚ) : ℚ :=
  if h_values.length < 3 ∨ b_values.length < 3 then 0
  else |shoelaceSumL h_values b_values| / 2

/-! ### Tabular reader (`read_dataset`, `calculate_coercivity.py:24-46`)

The csv layer is modelled by handing the loop the already-split rows
(`List (List String)`), and Python's `float()` by an abstract partial parse
function `pf` (both fields are parsed inside one `try`, so the result is
appended only when both succeed). -/

/-- The body of the row loop of `read_dataset`
(`calculate_coercivity.py:31-44`). -/
def read_row (pf : String → Option ℚ) (acc : List ℚ × List ℚ) (row : List String) :
    List ℚ × List ℚ :=
  if row.length < 2 then acc
  else if (row.getD 0 "").trim.toLower ∈ (["current", "i/a"] : List String) then acc
  else if (row.getD 1 "").trim.toLower ∈ (["flux density b", "b/mt"] : List String) then acc
  else
    match pf ((row.getD 0 "").trim), pf ((row.getD 1 "").trim) with
    | some c, some f => (acc.1 ++ [c], acc.2 ++ [f])
    | _, _ => acc

/-- `read_dataset` (`calculate_coercivity.py:24-46`): fold the row loop over
the file's rows, accumulating `(currents, fluxes)`. -/
def read_dataset (pf : String → Option ℚ) (rows : List (List String)) : List ℚ × List ℚ :=
  rows.foldl (read_row pf) ([], [])

/-! ### Negation script (`negate_run2softiron.py`)

Strings are modelled exactly; Python `float` values are modelled as exact
rationals (every literal in the analysed inputs is exactly representable at
the precision that matters), and `f"{x:.3f}"` as decimal rounding to the
nearest thousandth (ties rounded up rather than IEEE-half-even; no input
considered below hits a tie). -/

/-- Substring test on `List Char` (Python's `in` on `str`). -/
def listContains (pat : List Char) : List Char → Bool
  | [] => pat.isEmpty
  | c :: rest => pat.isPrefixOf (c :: rest) || listContains pat rest

/-- `pat in s` for strings. -/
def strContains (s pat : String) : Bool := listContains pat.data s.data

/-- Digits of a decimal token as a natural number. -/
def digitsToNat (l : List Char) : Nat := l.foldl (fun a c => a * 10 + (c.toNat - 48)) 0

/-- All characters are ASCII digits. -/
def allDigits (l : List Char) : Bool := l.all fun c => '0' ≤ c && c ≤ '9'

/-- Unsigned decimal literal (`"12"`, `"12.", ".5"`, `"0.1234"`) as an exact
rational. -/
def parseUnsignedQ (l : List Char) : Option ℚ :=
  let ip := l.takeWhile fun c => c ≠ '.'
  match l.dropWhile fun c => c ≠ '.' with
  | [] => if ip ≠ [] ∧ allDigits ip then some (digitsToNat ip) else none
  | _ :: fp =>
    if allDigits ip ∧ allDigits fp ∧ (ip ≠ [] ∨ fp ≠ []) then
      some ((digitsToNat ip : ℚ) + (digitsToNat fp : ℚ) / 10 ^ fp.length)
    else none

/-- Python's `float()` restricted to plain signed decimal literals (the only
shape occurring in the data files); surrounding whitespace is tolerated as
`float()` does. -/
def parseDec (s : String) : Option ℚ :=
  match s.trim.data with
  | '-' :: rest => (parseUnsignedQ rest).map fun x => -x
  | '+' :: rest => parseUnsignedQ rest
  | l => parseUnsignedQ l

/-- Decimal digits of `n`, most significant first. -/
def natDigits (n : Nat) : List Char :=
  if n < 10 then [Nat.digitChar n]
  else natDigits (n / 10) ++ [Nat.digitChar (n % 10)]
decreasing_by exact Nat.div_lt_self (by omega) (by omega)

/-- The three zero-padded fractional digits of a count of thousandths. -/
def fracChars3 (m : Nat) : List Char :=
  [Nat.digitChar (m / 100 % 10), Nat.digitChar (m / 10 % 10), Nat.digitChar (m % 10)]

/-- `f"{x:.3f}"`: sign taken from `x`, value rounded to the nearest number
of thousandths, printed with exactly three fractional digits. -/
def format3 (x : ℚ) : String :=
  let a : Nat := (round (x * 1000)).natAbs
  String.mk ((if x < 0 then ['-'] else []) ++
    natDigits (a / 1000) ++ '.' :: fracChars3 (a % 1000))

/-- Number of characters after the first `'.'` of a string. -/
def countAfterDot (s : String) : Nat :=
  ((s.data).dropWhile fun c => c ≠ '.').length - 1

/-- One iteration of the rewrite loop of `negate_dataset`
(`negate_run2softiron.py:13-41`): blank/tab-less lines, non-two-field lines,
header lines (substring match) and non-numeric lines pass through unchanged;
a numeric two-field line is replaced by the negated values formatted with
`:.3f` and a trailing newline. -/
def negLine (line : String) : String :=
  if line.trim = "" ∨ strContains line "\t" = false then line
  else
    let parts := line.trim.splitOn "\t"
    if parts.length ≠ 2 then line
    else if strContains (parts.getD 0 "").toLower "current" = true ∨
        strContains (parts.getD 0 "").toLower "i/a" = true then line
    else if strContains (parts.getD 1 "").toLower "flux" = true ∨
        strContains (parts.getD 1 "").toLower "b/mt" = true then line
    else
      match parseDec (parts.getD 0 ""), parseDec (parts.getD 1 "") with
      | some c, some f => format3 (-c) ++ "\t" ++ format3 (-f) ++ "\n"
      | _, _ => line

/-- The pure content transform of `negate_dataset`
(`negate_run2softiron.py:7-45`): every line of the file rewritten by
`negLine`. -/
def negate_dataset_lines (lines : List String) : List String := lines.map negLine

/-- Image of a crossing record under negation of both data sequences: the
index and the salience (a maximum of absolute values) are unchanged, the
interpolated value is negated. -/
def negC (c : Crossing) : Crossing := ⟨c.idx, -c.interp, c.sal⟩

/-! ## Helper lemmas -/

theorem detect_mem_spec {axis paired : List ℚ} {c : Crossing}
    (h : c ∈ detectCrossings axis paired) :
    c.idx + 1 < axis.length ∧
    axis.getD c.idx 0 * axis.getD (c.idx + 1) 0 ≤ 0 ∧
    axis.getD c.idx 0 ≠ axis.getD (c.idx + 1) 0 ∧
    c.interp = paired.getD c.idx 0 + (paired.getD (c.idx + 1) 0 - paired.getD c.idx 0) *
      (-(axis.getD c.idx 0)) / (axis.getD (c.idx + 1) 0 - axis.getD c.idx 0) ∧
    c.sal = windowMaxAbs paired c.idx := by
  simp only [detectCrossings, List.mem_filterMap, List.mem_range] at h
  obtain ⟨i, hi, hopt⟩ := h
  by_cases hcond : axis.getD i 0 * axis.getD (i + 1) 0 ≤ 0 ∧
      axis.getD i 0 ≠ axis.getD (i + 1) 0
  · rw [if_pos hcond] at hopt
    obtain rfl := Option.some.inj hopt
    refine ⟨?_, hcond.1, hcond.2, rfl, rfl⟩
    show i + 1 < axis.length
    omega
  · rw [if_neg hcond] at hopt
    cases hopt

theorem detectCrossings_pos_axis {axis paired : List ℚ}
    (hpos : ∀ x ∈ axis, 0 < x) : detectCrossings axis paired = [] := by
  rw [detectCrossings, List.filterMap_eq_nil_iff]
  intro i hi
  rw [List.mem_range] at hi
  have h0 : axis.getD i 0 ∈ axis := by
    rw [List.getD_eq_getElem axis 0 (by omega)]
    exact List.getElem_mem _
  have h1 : axis.getD (i + 1) 0 ∈ axis := by
    rw [List.getD_eq_getElem axis 0 (by omega)]
    exact List.getElem_mem _
  have : 0 < axis.getD i 0 * axis.getD (i + 1) 0 :=
    mul_pos (hpos _ h0) (hpos _ h1)
  rw [if_neg]
  rintro ⟨hle, -⟩
  exact absurd hle (not_le.mpr this)

theorem selectBranches_degenerate {cs : List Crossing}
    (h : (mainCrossingVals cs).length < 2) : selectBranches cs = (0, 0) := by
  unfold selectBranches
  by_cases he : cs.isEmpty
  · rw [if_pos he]
  · rw [if_neg he]
    rcases hm : mainCrossingVals cs with _ | ⟨v0, _ | ⟨v1, t⟩⟩
    · rfl
    · rfl
    · exfalso
      rw [hm] at h
      simp only [List.length_cons] at h
      omega

theorem remanence_mem_spec {h b : List ℚ} {z : ℚ} (hz : z ∈ remanenceCrossings h b) :
    ∃ i, i + 1 < h.length ∧
      ((h.getD i 0 ≤ 0 ∧ 0 ≤ h.getD (i + 1) 0) ∨ (h.getD (i + 1) 0 ≤ 0 ∧ 0 ≤ h.getD i 0)) ∧
      h.getD (i + 1) 0 ≠ h.getD i 0 ∧
      h.getD (i + 1) 0 - h.getD i 0 ≠ 0 ∧
      z = b.getD i 0 + (b.getD (i + 1) 0 - b.getD i 0) * (0 - h.getD i 0) /
        (h.getD (i + 1) 0 - h.getD i 0) := by
  simp only [remanenceCrossings, List.mem_filterMap, List.mem_range] at hz
  obtain ⟨i, hi, hopt⟩ := hz
  by_cases hsign : (h.getD i 0 ≤ 0 ∧ 0 ≤ h.getD (i + 1) 0) ∨
      (h.getD (i + 1) 0 ≤ 0 ∧ 0 ≤ h.getD i 0)
  · rw [if_pos hsign] at hopt
    by_cases hne : h.getD (i + 1) 0 ≠ h.getD i 0
    · rw [if_pos hne] at hopt
      exact ⟨i, by omega, hsign, hne, sub_ne_zero.mpr hne, (Option.some.inj hopt).symm⟩
    · rw [if_neg hne] at hopt
      cases hopt
  · rw [if_neg hsign] at hopt
    cases hopt

/-! ## Claim theorems -/

/-- C4: every crossing flagged by crossing detection records as its
interpolated paired value the linear interpolation
`b[i] + (b[i+1]-b[i]) * (0 - a[i]) / (a[i+1]-a[i])` of the paired
coordinate at the exact zero of the crossing axis; and on the series
`h = [-10, -5, 5, 10]`, `b = [-1, -0.5, 0.5, 1]` exactly one crossing is
found, with interpolated value `0`. -/
theorem C4_crossing_interpolation (axis paired : List ℚ) :
    (∀ c ∈ detectCrossings axis paired,
      c.interp = paired.getD c.idx 0 + (paired.getD (c.idx + 1) 0 - paired.getD c.idx 0) *
        (0 - axis.getD c.idx 0) / (axis.getD (c.idx + 1) 0 - axis.getD c.idx 0)) ∧
    (detectCrossings [-10, -5, 5, 10] [-1, -0.5, 0.5, 1]).map Crossing.interp = [0] := by
  constructor
  · intro c hc
    simpa [zero_sub] using (detect_mem_spec hc).2.2.2.1
  · with_unfolding_all decide

/-- Witness for C4: the concrete crossing found on the example series,
with its membership hypothesis discharged. -/
theorem C4_witness :
    (⟨1, 0, 1⟩ : Crossing) ∈ detectCrossings [-10, -5, 5, 10] [-1, -0.5, 0.5, 1] ∧
    (⟨1, 0, 1⟩ : Crossing).interp =
      [(-1 : ℚ), -0.5, 0.5, 1].getD 1 0 +
        ([(-1 : ℚ), -0.5, 0.5, 1].getD 2 0 - [(-1 : ℚ), -0.5, 0.5, 1].getD 1 0) *
        (0 - [(-10 : ℚ), -5, 5, 10].getD 1 0) /
        ([(-10 : ℚ), -5, 5, 10].getD 2 0 - [(-10 : ℚ), -5, 5, 10].getD 1 0) :=
  ⟨by with_unfolding_all decide,
   (C4_crossing_interpolation [-10, -5, 5, 10] [-1, -0.5, 0.5, 1]).1 ⟨1, 0, 1⟩
     (by with_unfolding_all decide)⟩

/-- C5: a crossing is flagged only when the adjacent crossing-axis values
have opposite sign or one is exactly zero AND the two values are unequal,
so `a[i+1] - a[i]` is nonzero for every interpolation actually evaluated;
the same holds for the guard of `find_remanence`. -/
theorem C5_interpolation_divisor_nonzero (axis paired h b : List ℚ) :
    (∀ c ∈ detectCrossings axis paired,
      ((axis.getD c.idx 0 < 0 ∧ 0 < axis.getD (c.idx + 1) 0) ∨
       (0 < axis.getD c.idx 0 ∧ axis.getD (c.idx + 1) 0 < 0) ∨
       axis.getD c.idx 0 = 0 ∨ axis.getD (c.idx + 1) 0 = 0) ∧
      axis.getD c.idx 0 ≠ axis.getD (c.idx + 1) 0 ∧
      axis.getD (c.idx + 1) 0 - axis.getD c.idx 0 ≠ 0) ∧
    (∀ z ∈ remanenceCrossings h b, ∃ i,
      ((h.getD i 0 ≤ 0 ∧ 0 ≤ h.getD (i + 1) 0) ∨ (h.getD (i + 1) 0 ≤ 0 ∧ 0 ≤ h.getD i 0)) ∧
      h.getD (i + 1) 0 ≠ h.getD i 0 ∧
      h.getD (i + 1) 0 - h.getD i 0 ≠ 0 ∧
      z = b.getD i 0 + (b.getD (i + 1) 0 - b.getD i 0) * (0 - h.getD i 0) /
        (h.getD (i + 1) 0 - h.getD i 0)) := by
  constructor
  · intro c hc
    obtain ⟨-, hle, hne, -, -⟩ := detect_mem_spec hc
    refine ⟨?_, hne, sub_ne_zero.mpr (Ne.symm hne)⟩
    by_cases e0 : axis.getD c.idx 0 = 0
    · exact Or.inr (Or.inr (Or.inl e0))
    by_cases e1 : axis.getD (c.idx + 1) 0 = 0
    · exact Or.inr (Or.inr (Or.inr e1))
    have hlt : axis.getD c.idx 0 * axis.getD (c.idx + 1) 0 < 0 :=
      lt_of_le_of_ne hle (mul_ne_zero e0 e1)
    rcases mul_neg_iff.mp hlt with ⟨hp, hn⟩ | ⟨hn, hp⟩
    · exact Or.inr (Or.inl ⟨hp, hn⟩)
    · exact Or.inl ⟨hn, hp⟩
  · intro z hz
    obtain ⟨i, -, hsign, hne, hdiv, hval⟩ := remanence_mem_spec hz
    exact ⟨i, hsign, hne, hdiv, hval⟩

/-- Witness for C5: both membership hypotheses discharged on concrete
series, with the nonzero-divisor conclusions extracted. -/
theorem C5_witness :
    ((⟨1, 0, 1⟩ : Crossing) ∈ detectCrossings [-10, -5, 5, 10] [-1, -0.5, 0.5, 1] ∧
      [(-10 : ℚ), -5, 5, 10].getD 2 0 - [(-10 : ℚ), -5, 5, 10].getD 1 0 ≠ 0) ∧
    ((3 : ℚ) ∈ remanenceCrossings [-1, 1] [2, 4] ∧
      ∃ i, (([(-1 : ℚ), 1].getD i 0 ≤ 0 ∧ 0 ≤ [(-1 : ℚ), 1].getD (i + 1) 0) ∨
            ([(-1 : ℚ), 1].getD (i + 1) 0 ≤ 0 ∧ 0 ≤ [(-1 : ℚ), 1].getD i 0)) ∧
        [(-1 : ℚ), 1].getD (i + 1) 0 ≠ [(-1 : ℚ), 1].getD i 0 ∧
        [(-1 : ℚ), 1].getD (i + 1) 0 - [(-1 : ℚ), 1].getD i 0 ≠ 0 ∧
        (3 : ℚ) = [(2 : ℚ), 4].getD i 0 +
          ([(2 : ℚ), 4].getD (i + 1) 0 - [(2 : ℚ), 4].getD i 0) *
          (0 - [(-1 : ℚ), 1].getD i 0) /
          ([(-1 : ℚ), 1].getD (i + 1) 0 - [(-1 : ℚ), 1].getD i 0)) :=
  ⟨⟨by with_unfolding_all decide,
    ((C5_interpolation_divisor_nonzero [-10, -5, 5, 10] [-1, -0.5, 0.5, 1] [-1, 1] [2, 4]).1
      ⟨1, 0, 1⟩ (by with_unfolding_all decide)).2.2⟩,
   ⟨by with_unfolding_all decide,
    (C5_interpolation_divisor_nonzero [-10, -5, 5, 10] [-1, -0.5, 0.5, 1] [-1, 1] [2, 4]).2
      3 (by with_unfolding_all decide)⟩⟩

/-- C2 (amended): for the main-loop classifiers, whenever the selection
loop collects fewer than two (opposite-sign) branch values — in particular
whenever the crossing axis stays strictly positive, as on a strictly
positive monotonic series — the result is `(0.0, 0.0)`; `find_remanence`
does not satisfy this (see `C2_counterexample`). -/
theorem C2_degenerate_returns_zero (h b : List ℚ) :
    ((mainCrossingVals (detectCrossings b h)).length < 2 →
      find_main_coercivity_crossings h b = (0, 0)) ∧
    ((mainCrossingVals (detectCrossings h b)).length < 2 →
      find_main_hysteresis_crossings h b = (0, 0)) ∧
    ((∀ x ∈ b, 0 < x) → find_main_coercivity_crossings h b = (0, 0)) ∧
    ((∀ x ∈ h, 0 < x) → find_main_hysteresis_crossings h b = (0, 0)) := by
  refine ⟨fun hlen => selectBranches_degenerate hlen,
    fun hlen => selectBranches_degenerate hlen, fun hpos => ?_, fun hpos => ?_⟩
  · unfold find_main_coercivity_crossings
    rw [detectCrossings_pos_axis hpos]
    rfl
  · unfold find_main_hysteresis_crossings
    rw [detectCrossings_pos_axis hpos]
    rfl

/-- Counterexample to C2 as stated: on the monotonic, never-crossing series
`h = [1, 2, 3]`, `b = [5, 6, 7]`, the branch classification routine
`find_remanence` (cited by the claim) returns the flux value at the sample
closest to `H = 0`, duplicated — `(5, 5)` — not `(0.0, 0.0)`. -/
theorem C2_counterexample :
    find_remanence [1, 2, 3] [5, 6, 7] = (5, 5) ∧
    find_remanence [1, 2, 3] [5, 6, 7] ≠ (0, 0) := by
  with_unfolding_all decide

/-- Witness for C2: the amended theorem applied to the monotonic series. -/
theorem C2_witness :
    (mainCrossingVals (detectCrossings [(5 : ℚ), 6, 7] [1, 2, 3])).length < 2 ∧
    find_main_coercivity_crossings [1, 2, 3] [5, 6, 7] = (0, 0) :=
  ⟨by with_unfolding_all decide,
   (C2_degenerate_returns_zero [1, 2, 3] [5, 6, 7]).1 (by with_unfolding_all decide)⟩

/-- C7: with fewer than 3 vertices both area implementations return 0 —
`calculate_hysteresis_area` through its explicit guard, and
`calculate_area_shoelace` because the signed Shoelace sum cancels for
`n ≤ 2`. -/
theorem C7_small_input_area_zero (h b : List ℚ)
    (h3 : h.length < 3) (b3 : b.length < 3) :
    calculate_hysteresis_area h b = 0 ∧ calculate_area_shoelace h b = 0 := by
  have hsum : shoelaceSumL h b = 0 := by
    rcases h with - | ⟨x, - | ⟨y, - | ⟨z, t⟩⟩⟩
    · simp [shoelaceSumL]
    · simp [shoelaceSumL]
    · simp only [shoelaceSumL, List.length_cons, List.length_nil]
      rw [Finset.sum_range_succ, Finset.sum_range_one]
      norm_num
    · exfalso
      simp only [List.length_cons] at h3
      omega
  refine ⟨?_, ?_⟩
  · rw [calculate_hysteresis_area, if_pos (Or.inl h3)]
  · rw [calculate_area_shoelace, hsum]
    simp

/-- Witness for C7: both areas are 0 on the two-vertex input
`h = [1, 2]`, `b = [3, 4]`. -/
theorem C7_witness :
    ([(1 : ℚ), 2].length < 3 ∧ [(3 : ℚ), 4].length < 3) ∧
    calculate_hysteresis_area [1, 2] [3, 4] = 0 ∧
    calculate_area_shoelace [1, 2] [3, 4] = 0 :=
  ⟨⟨by decide, by decide⟩, C7_small_input_area_zero [1, 2] [3, 4] (by decide) (by decide)⟩

/-- C10: with exactly one detected `H = 0` crossing, `find_remanence`
returns the interpolated `B` value duplicated in both components, so the
downstream uncertainty `abs(b_plus - abs(b_minus)) / 2` is `0` whenever
that value is non-negative. -/
theorem C10_single_crossing_duplicated (h b : List ℚ)
    (h1 : (remanenceCrossings h b).length = 1) :
    ∃ z, remanenceCrossings h b = [z] ∧ find_remanence h b = (z, z) ∧
      (0 ≤ z →
        branchUncertainty (find_remanence h b).1 (find_remanence h b).2 = 0) := by
  obtain ⟨z, hz⟩ := List.length_eq_one.mp h1
  have hfr : find_remanence h b = (z, z) := by
    rw [find_remanence, hz]
  refine ⟨z, hz, hfr, fun hz0 => ?_⟩
  rw [hfr, branchUncertainty]
  simp only
  rw [abs_of_nonneg hz0, sub_self, abs_zero, zero_div]

/-- Witness for C10: the single-crossing series `h = [-1, 1]`,
`b = [2, 4]`, whose crossing interpolates to `3 ≥ 0`. -/
theorem C10_witness :
    (remanenceCrossings [(-1 : ℚ), 1] [2, 4]).length = 1 ∧
    ∃ z, remanenceCrossings [(-1 : ℚ), 1] [2, 4] = [z] ∧
      find_remanence [-1, 1] [2, 4] = (z, z) ∧
      (0 ≤ z →
        branchUncertainty (find_remanence [(-1 : ℚ), 1] [2, 4]).1
          (find_remanence [(-1 : ℚ), 1] [2, 4]).2 = 0) :=
  ⟨by with_unfolding_all decide,
   C10_single_crossing_duplicated [-1, 1] [2, 4] (by with_unfolding_all decide)⟩

theorem insertDesc_perm (c : Crossing) (l : List Crossing) :
    (insertDesc c l).Perm (c :: l) := by
  induction l with
  | nil => exact List.Perm.refl _
  | cons d ds ih =>
    rw [insertDesc]
    by_cases hcd : d.sal < c.sal
    · rw [if_pos hcd]
    · rw [if_neg hcd]
      exact (ih.cons d).trans (List.Perm.swap c d ds)

theorem sortAux_perm (cs : List Crossing) :
    ∀ acc, (List.foldl (fun acc c => insertDesc c acc) acc cs).Perm (cs ++ acc) := by
  induction cs with
  | nil => intro acc; simp
  | cons c cs ih =>
    intro acc
    simp only [List.foldl_cons, List.cons_append]
    exact ((ih (insertDesc c acc)).trans
      ((List.Perm.append_left cs (insertDesc_perm c acc)).trans List.perm_middle))

theorem sortDescBySal_perm (cs : List Crossing) : (sortDescBySal cs).Perm cs := by
  simpa using sortAux_perm cs []

theorem insertDesc_sorted {c : Crossing} {l : List Crossing}
    (hl : l.Sorted fun a b => b.sal ≤ a.sal) :
    (insertDesc c l).Sorted fun a b => b.sal ≤ a.sal := by
  induction l with
  | nil => simp [insertDesc]
  | cons d ds ih =>
    rw [List.sorted_cons] at hl
    obtain ⟨hd, hds⟩ := hl
    rw [insertDesc]
    by_cases hcd : d.sal < c.sal
    · rw [if_pos hcd, List.sorted_cons]
      refine ⟨fun b hb => ?_, ?_⟩
      · rcases List.mem_cons.mp hb with rfl | hb'
        · exact le_of_lt hcd
        · exact le_trans (hd b hb') (le_of_lt hcd)
      · rw [List.sorted_cons]
        exact ⟨hd, hds⟩
    · rw [if_neg hcd, List.sorted_cons]
      refine ⟨fun b hb => ?_, ih hds⟩
      rcases List.mem_cons.mp ((insertDesc_perm c ds).mem_iff.mp hb) with rfl | hb'
      · exact le_of_not_lt hcd
      · exact hd b hb'

theorem sortAux_sorted (cs : List Crossing) :
    ∀ acc, acc.Sorted (fun a b => b.sal ≤ a.sal) →
      (List.foldl (fun acc c => insertDesc c acc) acc cs).Sorted
        fun a b => b.sal ≤ a.sal := by
  induction cs with
  | nil => intro acc h; simpa using h
  | cons c cs ih =>
    intro acc h
    exact ih _ (insertDesc_sorted h)

theorem sortDescBySal_sorted (cs : List Crossing) :
    (sortDescBySal cs).Sorted fun a b => b.sal ≤ a.sal :=
  sortAux_sorted cs [] List.sorted_nil

theorem scanSecond_eq_find (v : ℚ) (l : List Crossing) :
    scanSecond v l =
      (l.find? fun d => decide (d.interp * v < 0)).map Crossing.interp := by
  induction l with
  | nil => rfl
  | cons c cs ih =>
    rw [scanSecond]
    by_cases hc : c.interp * v < 0
    · rw [if_pos hc, List.find?_cons_of_pos _ (by simpa using hc)]
      rfl
    · rw [if_neg hc, List.find?_cons_of_neg _ (by simpa using hc)]
      exact ih

theorem scanSecond_some_sign {v w : ℚ} {l : List Crossing}
    (h : scanSecond v l = some w) : w * v < 0 := by
  induction l with
  | nil => cases h
  | cons c cs ih =>
    rw [scanSecond] at h
    by_cases hc : c.interp * v < 0
    · rw [if_pos hc] at h
      obtain rfl := Option.some.inj h
      exact hc
    · rw [if_neg hc] at h
      exact ih h

/-- C1: whenever crossing detection finds at least one crossing, the
selection loop takes as its first branch value the interpolated value of a
crossing of maximal salience (salience being the windowed maximum absolute
paired value), and as its second branch value the interpolated value of the
first crossing, scanning the remaining sorted-descending list, whose
interpolated value has strictly opposite sign from the first — the scan
stopping at the first hit (`List.find?`). -/
theorem C1_main_branch_selection (axis paired : List ℚ)
    (hne : detectCrossings axis paired ≠ []) :
    ∃ c rest, sortDescBySal (detectCrossings axis paired) = c :: rest ∧
      c ∈ detectCrossings axis paired ∧
      (∀ d ∈ detectCrossings axis paired, d.sal ≤ c.sal) ∧
      (∀ d ∈ detectCrossings axis paired, d.sal = windowMaxAbs paired d.idx) ∧
      mainCrossingVals (detectCrossings axis paired) =
        c.interp :: ((rest.find? fun d =>
          decide ((0 < c.interp ∧ d.interp < 0) ∨
            (c.interp < 0 ∧ 0 < d.interp))).map Crossing.interp).toList := by
  set cs := detectCrossings axis paired with hcs
  have hperm := sortDescBySal_perm cs
  have hsorted := sortDescBySal_sorted cs
  rcases hs : sortDescBySal cs with - | ⟨c, rest⟩
  · exfalso
    rw [hs] at hperm
    exact hne (hperm.symm.eq_nil)
  · rw [hs] at hperm hsorted
    refine ⟨c, rest, rfl, hperm.mem_iff.mp (List.mem_cons_self c rest), ?_, ?_, ?_⟩
    · intro d hd
      rcases List.mem_cons.mp (hperm.mem_iff.mpr hd) with rfl | hd'
      · exact le_refl _
      · exact List.rel_of_sorted_cons hsorted d hd'
    · intro d hd
      exact (detect_mem_spec (hcs ▸ hd)).2.2.2.2
    · have hpred : (fun d : Crossing => decide (d.interp * c.interp < 0)) =
          fun d : Crossing => decide ((0 < c.interp ∧ d.interp < 0) ∨
            (c.interp < 0 ∧ 0 < d.interp)) := by
        funext d
        apply decide_eq_decide.mpr
        rw [mul_neg_iff]
        tauto
      rw [mainCrossingVals, hs]
      dsimp only
      rw [scanSecond_eq_find, hpred]
      rcases hf : rest.find? fun d => decide ((0 < c.interp ∧ d.interp < 0) ∨
          (c.interp < 0 ∧ 0 < d.interp)) with - | d
      · rw [hf]
        rfl
      · rw [hf]
        rfl

/-- Witness for C1: the non-emptiness hypothesis discharged on the
two-crossing series `h = [5, -5, 5]`, `b = [1, -2, 4]`. -/
theorem C1_witness :
    detectCrossings [(5 : ℚ), -5, 5] [1, -2, 4] ≠ [] ∧
    ∃ c rest, sortDescBySal (detectCrossings [(5 : ℚ), -5, 5] [1, -2, 4]) = c :: rest ∧
      c ∈ detectCrossings [(5 : ℚ), -5, 5] [1, -2, 4] ∧
      (∀ d ∈ detectCrossings [(5 : ℚ), -5, 5] [1, -2, 4], d.sal ≤ c.sal) ∧
      (∀ d ∈ detectCrossings [(5 : ℚ), -5, 5] [1, -2, 4],
        d.sal = windowMaxAbs [1, -2, 4] d.idx) ∧
      mainCrossingVals (detectCrossings [(5 : ℚ), -5, 5] [1, -2, 4]) =
        c.interp :: ((rest.find? fun d =>
          decide ((0 < c.interp ∧ d.interp < 0) ∨
            (c.interp < 0 ∧ 0 < d.interp))).map Crossing.interp).toList :=
  ⟨by with_unfolding_all decide,
   C1_main_branch_selection [5, -5, 5] [1, -2, 4] (by with_unfolding_all decide)⟩

theorem getD_map_neg (l : List ℚ) (i : Nat) :
    (l.map fun x => -x).getD i 0 = -(l.getD i 0) := by
  rcases lt_or_ge i l.length with hi | hi
  · rw [List.getD_eq_getElem _ _ (by simpa using hi), List.getD_eq_getElem _ _ hi,
      List.getElem_map]
  · rw [List.getD_eq_default _ _ (by simpa using hi), List.getD_eq_default _ _ hi, neg_zero]

theorem absFoldMax_map_neg (l : List ℚ) :
    absFoldMax (l.map fun x => -x) = absFoldMax l := by
  unfold absFoldMax
  rw [List.foldl_map]
  simp only [abs_neg]

theorem windowMaxAbs_map_neg (p : List ℚ) (i : Nat) :
    windowMaxAbs (p.map fun x => -x) i = windowMaxAbs p i := by
  unfold windowMaxAbs
  rw [← List.map_drop, ← List.map_take, absFoldMax_map_neg]

theorem detectCrossings_map_neg (axis paired : List ℚ) :
    detectCrossings (axis.map fun x => -x) (paired.map fun x => -x) =
      (detectCrossings axis paired).map negC := by
  unfold detectCrossings
  rw [List.length_map, List.map_filterMap]
  congr 1
  funext i
  simp only [getD_map_neg, neg_mul_neg, ne_eq, neg_inj]
  by_cases hcond : axis.getD i 0 * axis.getD (i + 1) 0 ≤ 0 ∧
      ¬axis.getD i 0 = axis.getD (i + 1) 0
  · rw [if_pos hcond, if_pos hcond]
    simp only [Option.map_some', Option.some.injEq, Crossing.mk.injEq, negC]
    refine ⟨trivial, ?_, windowMaxAbs_map_neg paired i⟩
    have hden : -axis.getD (i + 1) 0 - -axis.getD i 0 =
        -(axis.getD (i + 1) 0 - axis.getD i 0) := by ring
    rw [hden, div_neg]
    ring
  · rw [if_neg hcond, if_neg hcond]
    rfl

theorem insertDesc_map_neg (c : Crossing) (l : List Crossing) :
    insertDesc (negC c) (l.map negC) = (insertDesc c l).map negC := by
  induction l with
  | nil => rfl
  | cons d ds ih =>
    simp only [List.map_cons, insertDesc]
    rw [apply_ite (List.map negC)]
    by_cases hcd : d.sal < c.sal
    · rw [if_pos (show (negC d).sal < (negC c).sal from hcd), if_pos hcd]
      simp only [List.map_cons]
    · rw [if_neg (show ¬(negC d).sal < (negC c).sal from hcd), if_neg hcd]
      simp only [List.map_cons]
      rw [ih]

theorem sortDescBySal_map_neg (cs : List Crossing) :
    sortDescBySal (cs.map negC) = (sortDescBySal cs).map negC := by
  suffices h : ∀ acc, List.foldl (fun acc c => insertDesc c acc) (acc.map negC) (cs.map negC) =
      (List.foldl (fun acc c => insertDesc c acc) acc cs).map negC by
    simpa [sortDescBySal] using h []
  induction cs with
  | nil => intro acc; simp
  | cons c cs ih =>
    intro acc
    simp only [List.map_cons, List.foldl_cons]
    rw [insertDesc_map_neg]
    exact ih (insertDesc c acc)

theorem scanSecond_map_neg (v : ℚ) (l : List Crossing) :
    scanSecond (-v) (l.map negC) = (scanSecond v l).map fun x => -x := by
  induction l with
  | nil => rfl
  | cons c cs ih =>
    simp only [List.map_cons, scanSecond]
    have hnn : (negC c).interp * -v = c.interp * v := by
      simp only [negC]
      rw [neg_mul_neg]
    simp only [hnn]
    by_cases hc : c.interp * v < 0
    · rw [if_pos hc, if_pos hc]
      rfl
    · rw [if_neg hc, if_neg hc]
      exact ih

theorem mainCrossingVals_pair {cs : List Crossing} {v0 v1 : ℚ}
    (h : mainCrossingVals cs = [v0, v1]) : v1 * v0 < 0 := by
  rw [mainCrossingVals] at h
  rcases hs : sortDescBySal cs with - | ⟨c, rest⟩
  · rw [hs] at h
    cases h
  · rw [hs] at h
    dsimp only at h
    rcases hsc : scanSecond c.interp rest with - | v
    · rw [hsc] at h
      simp at h
    · rw [hsc] at h
      simp only [List.cons.injEq, and_true] at h
      obtain ⟨rfl, rfl, -⟩ := h
      exact scanSecond_some_sign hsc

theorem mainCrossingVals_map_neg (cs : List Crossing) :
    mainCrossingVals (cs.map negC) = (mainCrossingVals cs).map fun x => -x := by
  rw [mainCrossingVals, mainCrossingVals, sortDescBySal_map_neg]
  rcases hs : sortDescBySal cs with - | ⟨c, rest⟩
  · rfl
  · simp only [List.map_cons]
    have hci : (negC c).interp = -c.interp := rfl
    rw [hci, scanSecond_map_neg]
    rcases hsc : scanSecond c.interp rest with - | v
    · rfl
    · rfl

theorem selectBranches_map_neg (cs : List Crossing) :
    selectBranches (cs.map negC) =
      (-(selectBranches cs).2, -(selectBranches cs).1) := by
  rw [selectBranches, selectBranches, mainCrossingVals_map_neg]
  have hemap : (cs.map negC).isEmpty = cs.isEmpty := by cases cs <;> rfl
  rw [hemap]
  by_cases he : cs.isEmpty
  · rw [if_pos he, if_pos he]
    norm_num
  · rw [if_neg he, if_neg he]
    rcases hm : mainCrossingVals cs with - | ⟨v0, - | ⟨v1, - | ⟨v2, t⟩⟩⟩
    · norm_num
    · norm_num
    · have hsign := mainCrossingVals_pair hm
      simp only [List.map_cons, List.map_nil]
      by_cases hv0 : v0 > 0
      · have hneg : ¬(-v0 > 0) := by linarith
        rw [if_pos hv0, if_neg hneg]
      · have hne : v0 ≠ 0 := by
          intro h0
          rw [h0, mul_zero] at hsign
          exact lt_irrefl 0 hsign
        have hv0' : v0 < 0 := lt_of_le_of_ne (le_of_not_lt hv0) hne
        have hpos : -v0 > 0 := by linarith
        rw [if_neg hv0, if_pos hpos]
    · norm_num

theorem selectBranches_sign (cs : List Crossing) :
    selectBranches cs = (0, 0) ∨
      (0 < (selectBranches cs).1 ∧ (selectBranches cs).2 < 0) := by
  rw [selectBranches]
  by_cases he : cs.isEmpty
  · rw [if_pos he]
    exact Or.inl rfl
  · rw [if_neg he]
    rcases hm : mainCrossingVals cs with - | ⟨v0, - | ⟨v1, - | ⟨v2, t⟩⟩⟩
    · exact Or.inl rfl
    · exact Or.inl rfl
    · have hsign := mainCrossingVals_pair hm
      dsimp only
      by_cases hv0 : v0 > 0
      · rw [if_pos hv0]
        refine Or.inr ⟨hv0, ?_⟩
        nlinarith
      · have hne : v0 ≠ 0 := by
          intro h0
          rw [h0, mul_zero] at hsign
          exact lt_irrefl 0 hsign
        have hv0' : v0 < 0 := lt_of_le_of_ne (le_of_not_lt hv0) hne
        rw [if_neg hv0]
        refine Or.inr ⟨?_, hv0'⟩
        nlinarith
    · exact Or.inl rfl

theorem branchMidpoint_swap_neg {p m : ℚ}
    (hc : (p = 0 ∧ m = 0) ∨ (0 < p ∧ m < 0)) :
    branchMidpoint (-m) (-p) = branchMidpoint p m := by
  rcases hc with ⟨rfl, rfl⟩ | ⟨hp, hm⟩
  · norm_num [branchMidpoint]
  · unfold branchMidpoint
    rw [abs_neg, abs_of_pos hp, abs_of_neg hm]
    ring

theorem shoelaceSumL_map_neg (h b : List ℚ) :
    shoelaceSumL (h.map fun x => -x) (b.map fun x => -x) = shoelaceSumL h b := by
  unfold shoelaceSumL
  rw [List.length_map]
  apply Finset.sum_congr rfl
  intro i hi
  rw [getD_map_neg, getD_map_neg, getD_map_neg, getD_map_neg]
  ring

/-- C3 (amended): negating every paired value of a dataset negates the two
branch values but swaps their roles — `(plus, minus)` becomes
`(-minus, -plus)`, preserving the convention that `plus` is the positive
branch — and leaves the `abs()`-based midpoint `(plus + abs(minus)) / 2`
and the Shoelace enclosed area unchanged. -/
theorem C3_negation_swaps_branches (h b : List ℚ) :
    find_main_hysteresis_crossings (h.map fun x => -x) (b.map fun x => -x) =
      (-(find_main_hysteresis_crossings h b).2,
       -(find_main_hysteresis_crossings h b).1) ∧
    find_main_coercivity_crossings (h.map fun x => -x) (b.map fun x => -x) =
      (-(find_main_coercivity_crossings h b).2,
       -(find_main_coercivity_crossings h b).1) ∧
    branchMidpoint (find_main_hysteresis_crossings (h.map fun x => -x) (b.map fun x => -x)).1
        (find_main_hysteresis_crossings (h.map fun x => -x) (b.map fun x => -x)).2 =
      branchMidpoint (find_main_hysteresis_crossings h b).1
        (find_main_hysteresis_crossings h b).2 ∧
    branchMidpoint (find_main_coercivity_crossings (h.map fun x => -x) (b.map fun x => -x)).1
        (find_main_coercivity_crossings (h.map fun x => -x) (b.map fun x => -x)).2 =
      branchMidpoint (find_main_coercivity_crossings h b).1
        (find_main_coercivity_crossings h b).2 ∧
    calculate_hysteresis_area (h.map fun x => -x) (b.map fun x => -x) =
      calculate_hysteresis_area h b ∧
    calculate_area_shoelace (h.map fun x => -x) (b.map fun x => -x) =
      calculate_area_shoelace h b := by
  have hh : find_main_hysteresis_crossings (h.map fun x => -x) (b.map fun x => -x) =
      (-(find_main_hysteresis_crossings h b).2, -(find_main_hysteresis_crossings h b).1) := by
    unfold find_main_hysteresis_crossings
    rw [detectCrossings_map_neg, selectBranches_map_neg]
  have hc : find_main_coercivity_crossings (h.map fun x => -x) (b.map fun x => -x) =
      (-(find_main_coercivity_crossings h b).2, -(find_main_coercivity_crossings h b).1) := by
    unfold find_main_coercivity_crossings
    rw [detectCrossings_map_neg, selectBranches_map_neg]
  have hmid : ∀ cs : List Crossing,
      branchMidpoint (-(selectBranches cs).2) (-(selectBranches cs).1) =
        branchMidpoint (selectBranches cs).1 (selectBranches cs).2 := by
    intro cs
    apply branchMidpoint_swap_neg
    rcases selectBranches_sign cs with hz | hs
    · exact Or.inl ⟨congrArg Prod.fst hz, congrArg Prod.snd hz⟩
    · exact Or.inr hs
  refine ⟨hh, hc, ?_, ?_, ?_, ?_⟩
  · rw [hh]
    exact hmid (detectCrossings h b)
  · rw [hc]
    exact hmid (detectCrossings b h)
  · rw [calculate_hysteresis_area, calculate_hysteresis_area, List.length_map,
      List.length_map, shoelaceSumL_map_neg]
  · rw [calculate_area_shoelace, calculate_area_shoelace, shoelaceSumL_map_neg]

/-- Counterexample to C3 as stated: on `h = [5, -5, 5]`, `b = [1, -2, 4]`
the classifier returns `(plus, minus) = (1, -1/2)`; on the negated dataset
it returns `(1/2, -1)`, which is not the elementwise negation `(-1, 1/2)`
of the original outputs — the outputs are negated *and swapped*. -/
theorem C3_counterexample :
    find_main_hysteresis_crossings [(5 : ℚ), -5, 5] [1, -2, 4] = (1, -1/2) ∧
    find_main_hysteresis_crossings [(-5 : ℚ), 5, -5] [-1, 2, -4] = (1/2, -1) ∧
    find_main_hysteresis_crossings [(-5 : ℚ), 5, -5] [-1, 2, -4] ≠
      (-(find_main_hysteresis_crossings [(5 : ℚ), -5, 5] [1, -2, 4]).1,
       -(find_main_hysteresis_crossings [(5 : ℚ), -5, 5] [1, -2, 4]).2) := by
  with_unfolding_all decide

theorem sum_range_mod_shift (F : Nat → ℚ) (n k : Nat) :
    ∑ i ∈ Finset.range n, F ((i + k) % n) = ∑ i ∈ Finset.range n, F i := by
  rcases Nat.eq_zero_or_pos n with rfl | hpos
  · simp
  · haveI : NeZero n := ⟨by omega⟩
    rw [← Fin.sum_univ_eq_sum_range (fun i => F ((i + k) % n)) n,
      ← Fin.sum_univ_eq_sum_range F n]
    have step : ∀ i : Fin n, F ((i.val + k) % n) =
        (fun j : Fin n => F j.val) ((Equiv.addRight (⟨k % n, Nat.mod_lt k hpos⟩ : Fin n)) i) := by
      intro i
      simp only [Equiv.coe_addRight]
      congr 1
      rw [Fin.val_add]
      exact (Nat.add_mod_mod i.val k n).symm
    rw [Finset.sum_congr rfl fun i _ => step i]
    exact Equiv.sum_comp (Equiv.addRight (⟨k % n, Nat.mod_lt k hpos⟩ : Fin n))
      fun j : Fin n => F j.val

theorem getD_rotate (l : List ℚ) (k i : Nat) (hi : i < l.length) :
    (l.rotate k).getD i 0 = l.getD ((i + k) % l.length) 0 := by
  have h1 : i < (l.rotate k).length := by rw [List.length_rotate]; exact hi
  have h2 : (i + k) % l.length < l.length := Nat.mod_lt _ (by omega)
  rw [List.getD_eq_getElem _ _ h1, List.getD_eq_getElem _ _ h2, List.getElem_rotate]

theorem getD_reverse (l : List ℚ) (i : Nat) (hi : i < l.length) :
    l.reverse.getD i 0 = l.getD (l.length - 1 - i) 0 := by
  have h1 : i < l.reverse.length := by rw [List.length_reverse]; exact hi
  have h2 : l.length - 1 - i < l.length := by omega
  rw [List.getD_eq_getElem _ _ h1, List.getD_eq_getElem _ _ h2, List.getElem_reverse]

theorem shoelaceSumL_rotate (h b : List ℚ) (k : Nat) (hlen : h.length = b.length) :
    shoelaceSumL (h.rotate k) (b.rotate k) = shoelaceSumL h b := by
  unfold shoelaceSumL
  rw [List.length_rotate]
  have hbl : b.length = h.length := hlen.symm
  have hcongr : ∀ i ∈ Finset.range h.length,
      ((h.rotate k).getD i 0 * (b.rotate k).getD ((i + 1) % h.length) 0 -
        (h.rotate k).getD ((i + 1) % h.length) 0 * (b.rotate k).getD i 0) =
      (fun j => h.getD j 0 * b.getD ((j + 1) % h.length) 0 -
        h.getD ((j + 1) % h.length) 0 * b.getD j 0) ((i + k) % h.length) := by
    intro i hi
    rw [Finset.mem_range] at hi
    have hn : 0 < h.length := by omega
    have hi1 : (i + 1) % h.length < h.length := Nat.mod_lt _ hn
    have e1 : (h.rotate k).getD i 0 = h.getD ((i + k) % h.length) 0 := getD_rotate h k i hi
    have e2 : (b.rotate k).getD i 0 = b.getD ((i + k) % h.length) 0 := by
      rw [getD_rotate b k i (by omega), hbl]
    have e3 : (h.rotate k).getD ((i + 1) % h.length) 0 =
        h.getD (((i + 1) % h.length + k) % h.length) 0 := getD_rotate h k _ hi1
    have e4 : (b.rotate k).getD ((i + 1) % h.length) 0 =
        b.getD (((i + 1) % h.length + k) % h.length) 0 := by
      rw [getD_rotate b k _ (by omega), hbl]
    have eidx : ((i + 1) % h.length + k) % h.length =
        ((i + k) % h.length + 1) % h.length := by
      rw [Nat.mod_add_mod, Nat.mod_add_mod]
      congr 1
      omega
    rw [e1, e2, e3, e4, eidx]
  rw [Finset.sum_congr rfl hcongr,
    sum_range_mod_shift (fun j => h.getD j 0 * b.getD ((j + 1) % h.length) 0 -
      h.getD ((j + 1) % h.length) 0 * b.getD j 0) h.length k]

theorem shoelaceSumL_reverse (h b : List ℚ) (hlen : h.length = b.length) :
    shoelaceSumL h.reverse b.reverse = -shoelaceSumL h b := by
  rcases Nat.eq_zero_or_pos h.length with hz | hpos
  · obtain rfl : h = [] := List.length_eq_zero.mp hz
    obtain rfl : b = [] := List.length_eq_zero.mp (by omega)
    simp [shoelaceSumL]
  · unfold shoelaceSumL
    rw [List.length_reverse]
    have hbl : b.length = h.length := hlen.symm
    have hstep1 : ∀ i ∈ Finset.range h.length,
        (h.reverse.getD i 0 * b.reverse.getD ((i + 1) % h.length) 0 -
          h.reverse.getD ((i + 1) % h.length) 0 * b.reverse.getD i 0) =
        (fun j => h.getD j 0 * b.getD ((j + (h.length - 1)) % h.length) 0 -
          h.getD ((j + (h.length - 1)) % h.length) 0 * b.getD j 0)
          (h.length - 1 - i) := by
      intro i hi
      rw [Finset.mem_range] at hi
      have hi1 : (i + 1) % h.length < h.length := Nat.mod_lt _ hpos
      have e1 : h.reverse.getD i 0 = h.getD (h.length - 1 - i) 0 := getD_reverse h i hi
      have e2 : b.reverse.getD i 0 = b.getD (h.length - 1 - i) 0 := by
        rw [getD_reverse b i (by omega), hbl]
      have e3 : h.reverse.getD ((i + 1) % h.length) 0 =
          h.getD (h.length - 1 - (i + 1) % h.length) 0 := getD_reverse h _ hi1
      have e4 : b.reverse.getD ((i + 1) % h.length) 0 =
          b.getD (h.length - 1 - (i + 1) % h.length) 0 := by
        rw [getD_reverse b _ (by omega), hbl]
      have eidx : h.length - 1 - (i + 1) % h.length =
          ((h.length - 1 - i) + (h.length - 1)) % h.length := by
        rcases Nat.lt_or_ge i (h.length - 1) with hlt | hge
        · rw [Nat.mod_eq_of_lt (by omega)]
          rw [show (h.length - 1 - i) + (h.length - 1) =
            h.length + (h.length - 2 - i) from by omega]
          rw [Nat.add_mod_left, Nat.mod_eq_of_lt (by omega)]
          omega
        · have hieq : i = h.length - 1 := by omega
          subst hieq
          rw [show h.length - 1 + 1 = h.length from by omega, Nat.mod_self]
          rw [show h.length - 1 - (h.length - 1) = 0 from by omega, Nat.zero_add,
            Nat.mod_eq_of_lt (by omega)]
          omega
      rw [e1, e2, e3, e4, eidx]
    rw [Finset.sum_congr rfl hstep1,
      Finset.sum_range_reflect (fun j => h.getD j 0 *
        b.getD ((j + (h.length - 1)) % h.length) 0 -
        h.getD ((j + (h.length - 1)) % h.length) 0 * b.getD j 0) h.length]
    have hstep2 : ∀ j ∈ Finset.range h.length,
        (fun j => h.getD j 0 * b.getD ((j + (h.length - 1)) % h.length) 0 -
          h.getD ((j + (h.length - 1)) % h.length) 0 * b.getD j 0) j =
        -((fun m => h.getD m 0 * b.getD ((m + 1) % h.length) 0 -
            h.getD ((m + 1) % h.length) 0 * b.getD m 0)
          ((j + (h.length - 1)) % h.length)) := by
      intro j hj
      rw [Finset.mem_range] at hj
      have em : ((j + (h.length - 1)) % h.length + 1) % h.length = j := by
        rw [Nat.mod_add_mod]
        rcases Nat.eq_zero_or_pos j with rfl | hjpos
        · rw [Nat.zero_add, show h.length - 1 + 1 = h.length from by omega, Nat.mod_self]
        · rw [show j + (h.length - 1) + 1 = h.length + j from by omega,
            Nat.add_mod_left, Nat.mod_eq_of_lt hj]
      dsimp only
      rw [em]
      ring
    rw [Finset.sum_congr rfl hstep2, Finset.sum_neg_distrib,
      sum_range_mod_shift (fun m => h.getD m 0 * b.getD ((m + 1) % h.length) 0 -
        h.getD ((m + 1) % h.length) 0 * b.getD m 0) h.length (h.length - 1)]

/-- C6: for equal-length paired vertex sequences, both Shoelace area
implementations are invariant under any cyclic rotation of the vertex
sequence and under reversal of the traversal direction (the absolute value
removes the sign of the signed area), and the computed area is always
non-negative. -/
theorem C6_area_rotation_reversal_invariant (h b : List ℚ) (k : Nat)
    (hlen : h.length = b.length) :
    calculate_area_shoelace (h.rotate k) (b.rotate k) = calculate_area_shoelace h b ∧
    calculate_area_shoelace h.reverse b.reverse = calculate_area_shoelace h b ∧
    0 ≤ calculate_area_shoelace h b ∧
    calculate_hysteresis_area (h.rotate k) (b.rotate k) = calculate_hysteresis_area h b ∧
    calculate_hysteresis_area h.reverse b.reverse = calculate_hysteresis_area h b ∧
    0 ≤ calculate_hysteresis_area h b := by
  refine ⟨?_, ?_, ?_, ?_, ?_, ?_⟩
  · rw [calculate_area_shoelace, calculate_area_shoelace, shoelaceSumL_rotate h b k hlen]
  · rw [calculate_area_shoelace, calculate_area_shoelace,
      shoelaceSumL_reverse h b hlen, abs_neg]
  · rw [calculate_area_shoelace]
    positivity
  · rw [calculate_hysteresis_area, calculate_hysteresis_area, List.length_rotate,
      List.length_rotate, shoelaceSumL_rotate h b k hlen]
  · rw [calculate_hysteresis_area, calculate_hysteresis_area, List.length_reverse,
      List.length_reverse, shoelaceSumL_reverse h b hlen, abs_neg]
  · rw [calculate_hysteresis_area]
    split
    · exact le_refl 0
    · positivity

/-- Witness for C6: the equal-length hypothesis discharged on the triangle
`(0,0), (4,0), (0,3)` with rotation `k = 1`. -/
theorem C6_witness :
    ([(0 : ℚ), 4, 0].length = [(0 : ℚ), 0, 3].length) ∧
    (calculate_area_shoelace ([(0 : ℚ), 4, 0].rotate 1) ([(0 : ℚ), 0, 3].rotate 1) =
        calculate_area_shoelace [0, 4, 0] [0, 0, 3] ∧
      calculate_area_shoelace [(0 : ℚ), 4, 0].reverse [(0 : ℚ), 0, 3].reverse =
        calculate_area_shoelace [0, 4, 0] [0, 0, 3] ∧
      0 ≤ calculate_area_shoelace [(0 : ℚ), 4, 0] [0, 0, 3] ∧
      calculate_hysteresis_area ([(0 : ℚ), 4, 0].rotate 1) ([(0 : ℚ), 0, 3].rotate 1) =
        calculate_hysteresis_area [0, 4, 0] [0, 0, 3] ∧
      calculate_hysteresis_area [(0 : ℚ), 4, 0].reverse [(0 : ℚ), 0, 3].reverse =
        calculate_hysteresis_area [0, 4, 0] [0, 0, 3] ∧
      0 ≤ calculate_hysteresis_area [(0 : ℚ), 4, 0] [0, 0, 3]) :=
  ⟨by decide, C6_area_rotation_reversal_invariant [0, 4, 0] [0, 0, 3] 1 (by decide)⟩

/-- C8: a row whose first token (stripped, lowered) is a recognised current
header, or whose second token is a recognised flux header, is excluded from
the parsed output wherever it occurs in the file: deleting it does not
change the result of `read_dataset`. -/
theorem C8_header_rows_excluded (pf : String → Option ℚ)
    (pre suf : List (List String)) (r : List String)
    (hr : (r.getD 0 "").trim.toLower ∈ (["current", "i/a"] : List String) ∨
      (r.getD 1 "").trim.toLower ∈ (["flux density b", "b/mt"] : List String)) :
    read_dataset pf (pre ++ r :: suf) = read_dataset pf (pre ++ suf) := by
  unfold read_dataset
  rw [List.foldl_append, List.foldl_append, List.foldl_cons]
  have hrow : ∀ acc : List ℚ × List ℚ, read_row pf acc r = acc := by
    intro acc
    unfold read_row
    by_cases h2 : r.length < 2
    · rw [if_pos h2]
    · rw [if_neg h2]
      by_cases h1 : (r.getD 0 "").trim.toLower ∈ (["current", "i/a"] : List String)
      · rw [if_pos h1]
      · rcases hr with hr | hr
        · exact absurd hr h1
        · rw [if_neg h1, if_pos hr]
  rw [hrow]

/-- Witness for C8: dropping the mid-file header row `["current", "5"]`
leaves the parsed output unchanged. -/
theorem C8_witness :
    ((["current", "5"].getD 0 "").trim.toLower ∈ (["current", "i/a"] : List String) ∨
      (["current", "5"].getD 1 "").trim.toLower ∈
        (["flux density b", "b/mt"] : List String)) ∧
    read_dataset parseDec ([["0.5", "1.5"]] ++ ["current", "5"] :: [["2", "3"]]) =
      read_dataset parseDec ([["0.5", "1.5"]] ++ [["2", "3"]]) :=
  ⟨Or.inl (by with_unfolding_all decide),
   C8_header_rows_excluded parseDec [["0.5", "1.5"]] [["2", "3"]] ["current", "5"]
     (Or.inl (by with_unfolding_all decide))⟩

theorem digitChar_ne_dot (d : Nat) (h : d < 10) : Nat.digitChar d ≠ '.' := by
  interval_cases d <;> decide

theorem natDigits_ne_dot (n : Nat) : ∀ c ∈ natDigits n, c ≠ '.' := by
  induction n using Nat.strong_induction_on with
  | _ n ih =>
    rw [natDigits]
    by_cases h : n < 10
    · rw [if_pos h]
      intro c hc
      rw [List.mem_singleton] at hc
      subst hc
      exact digitChar_ne_dot n h
    · rw [if_neg h]
      intro c hc
      rcases List.mem_append.mp hc with hc | hc
      · exact ih (n / 10) (Nat.div_lt_self (by omega) (by omega)) c hc
      · rw [List.mem_singleton] at hc
        subst hc
        exact digitChar_ne_dot _ (Nat.mod_lt _ (by omega))

theorem dropWhile_append_all {p : Char → Bool} (l1 l2 : List Char)
    (h : ∀ c ∈ l1, p c = true) :
    (l1 ++ l2).dropWhile p = l2.dropWhile p := by
  induction l1 with
  | nil => rfl
  | cons c cs ih =>
    rw [List.cons_append, List.dropWhile_cons, if_pos (h c (List.mem_cons_self c cs))]
    exact ih fun d hd => h d (List.mem_cons_of_mem c hd)

theorem countAfterDot_format3 (x : ℚ) : countAfterDot (format3 x) = 3 := by
  simp only [format3, countAfterDot]
  have hsign : ∀ c ∈ (if x < 0 then ['-'] else []),
      (fun c => decide (c ≠ '.')) c = true := by
    intro c hc
    split at hc
    · rw [List.mem_singleton] at hc
      subst hc
      decide
    · cases hc
  have hdig : ∀ c ∈ natDigits ((round (x * 1000)).natAbs / 1000),
      (fun c => decide (c ≠ '.')) c = true := by
    intro c hc
    simpa using natDigits_ne_dot _ c hc
  rw [List.append_assoc, dropWhile_append_all _ _ hsign, dropWhile_append_all _ _ hdig,
    List.dropWhile_cons, if_neg (by decide)]
  rfl

/-- C9: every numeric two-field line rewritten by the negation script is
emitted with the negated values formatted to exactly three decimal places
(`format3` always prints exactly three fractional digits), and applying the
transform twice is not the identity on file contents: the line
`"0.1234\t0.1234\n"` needs four fractional digits, and two applications
yield `"0.123\t0.123\n"`. -/
theorem C9_three_decimals_not_involution :
    (∀ x : ℚ, countAfterDot (format3 x) = 3) ∧
    negLine "0.1234\t0.1234\n" = "-0.123\t-0.123\n" ∧
    negate_dataset_lines (negate_dataset_lines ["0.1234\t0.1234\n"]) ≠
      ["0.1234\t0.1234\n"] := by
  refine ⟨countAfterDot_format3, ?_, ?_⟩
  · with_unfolding_all decide
  · with_unfolding_all decide
